import Mathlib

/-!
# Verification of the commitbee analysis core

Shallow embedding of the analysis pipeline of the `commitbee` repository:
the hunk parser and interval intersection (`src/services/analyzer.rs`),
the change classifier, scope inference and adaptive diff truncation
(`src/services/context.rs`), and the commit splitter
(`src/services/splitter.rs`), together with theorems checking the
natural-language specification against these definitions.

Rust `usize` values are modelled as `Nat` (the quantities involved are
counts and string lengths; no wrapping arithmetic occurs in the embedded
code). Rust `String`/`&str` are modelled as Lean `String`, with byte
lengths (`str::len`) modelled by `String.utf8ByteSize`. Rust `Path` values
are modelled as their component lists (`List String`), which matches how
the embedded code consumes them (`components`, `parent`, `file_name`,
`file_stem`, `extension`).
-/

namespace Commitbee

/-! ## Paths

A path is its list of components, e.g. `"src/foo/a.rs"` is
`["src", "foo", "a.rs"]`. `std::path::Path::file_name` is the last
component; `Path::parent` of a single-component relative path is the
empty path, whose `file_name` is `None`, which is what `parentName`
returns for a singleton list. -/

abbrev PathT := List String

def displayPath (p : PathT) : String := String.intercalate "/" p

def fileName (p : PathT) : Option String := p.getLast?

def parentName (p : PathT) : Option String := p.dropLast.getLast?

/-- Prefix of the name that precedes its last `'.'`, provided that dot is
not the leading character; `none` when the name has no such dot.
Mirrors the split `std::path::Path::file_stem` performs on a file name. -/
def lastDotSplit : List Char → Option (List Char)
  | [] => none
  | c :: rest =>
    match lastDotSplit rest with
    | some s => some (c :: s)
    | none => if c = '.' then some [] else none

/-- Rust `Path::file_stem` applied to a file name: the portion before the last
`'.'`, except that a name whose only dot is leading (e.g. `".gitignore"`)
is its own stem. -/
def fileStemOfName (n : String) : String :=
  match lastDotSplit n.data with
  | some [] => n
  | some pre => String.mk pre
  | none => n

/-! ## Domain model (`src/domain/change.rs`, `symbol.rs`, `commit.rs`) -/

inductive ChangeStatus where
  | Added
  | Modified
  | Deleted
deriving DecidableEq

inductive FileCategory where
  | Source
  | Test
  | Config
  | Docs
  | Build
  | Other
deriving DecidableEq

/-- Rust `FileCategory::priority` (`src/domain/change.rs`). -/
def FileCategory.priority : FileCategory → Nat
  | .Source => 0
  | .Test => 1
  | .Config => 2
  | .Docs => 3
  | .Build => 4
  | .Other => 5

structure FileChange where
  path : PathT
  status : ChangeStatus
  diff : String
  additions : Nat
  deletions : Nat
  category : FileCategory
  is_binary : Bool
deriving DecidableEq

structure DiffStats where
  files_changed : Nat
  insertions : Nat
  deletions : Nat
deriving DecidableEq

structure StagedChanges where
  files : List FileChange
  stats : DiffStats
deriving DecidableEq

inductive SymbolKind where
  | Function
  | Method
  | Struct
  | Enum
  | Trait
  | Impl
  | Class
  | Interface
  | Const
  | Type
deriving DecidableEq

structure CodeSymbol where
  kind : SymbolKind
  name : String
  file : PathT
  line : Nat
  is_public : Bool
  is_added : Bool
deriving DecidableEq

inductive CommitType where
  | Feat
  | Fix
  | Refactor
  | Docs
  | Test
  | Chore
  | Style
  | Perf
  | Build
  | Ci
  | Revert
deriving DecidableEq

/-- The configuration values the core consumes (`src/config.rs`). -/
structure Config where
  max_diff_lines : Nat
  max_file_lines : Nat
  max_context_chars : Nat
deriving DecidableEq

/-! ## Stable sorting

`Vec::sort_by` / `sort_by_key` in Rust are stable sorts. They are modelled
by a stable insertion sort parameterised by a strict "must come before"
test: an element is inserted behind every element it need not precede, so
elements that compare equal keep their relative order. -/

def insertStable (bef : α → α → Bool) (x : α) : List α → List α
  | [] => [x]
  | y :: ys => if bef x y then x :: y :: ys else y :: insertStable bef x ys

def sortStable (bef : α → α → Bool) (l : List α) : List α :=
  l.foldl (fun acc x => insertStable bef x acc) []

/-- Rust `StagedChanges::files_by_priority`: the files stably sorted by
ascending category priority (`sort_by_key`). -/
def StagedChanges.files_by_priority (c : StagedChanges) : List FileChange :=
  sortStable (fun a b => a.category.priority < b.category.priority) c.files

/-! ## Hunk parser (`src/services/analyzer.rs`) -/

structure DiffHunk where
  old_start : Nat
  old_count : Nat
  new_start : Nat
  new_count : Nat
deriving DecidableEq

/-- Rust `DiffHunk::intersects_new`. -/
def DiffHunk.intersects_new (h : DiffHunk) (line_start line_end : Nat) : Bool :=
  let hunk_end := h.new_start + h.new_count
  decide (line_start < hunk_end) && decide (line_end > h.new_start)

/-- Rust `DiffHunk::intersects_old`. -/
def DiffHunk.intersects_old (h : DiffHunk) (line_start line_end : Nat) : Bool :=
  let hunk_end := h.old_start + h.old_count
  decide (line_start < hunk_end) && decide (line_end > h.old_start)

/-- The per-symbol hunk test of `AnalyzerService::visit_node_with_hunks`
(`src/services/analyzer.rs`, the `intersects` computation): a declaration
span is kept iff it intersects at least one hunk on the relevant side. -/
def spanIntersectsAnyHunk (hunks : List DiffHunk) (is_added : Bool)
    (line_start line_end : Nat) : Bool :=
  hunks.any fun h =>
    if is_added then h.intersects_new line_start line_end
    else h.intersects_old line_start line_end

/-! ### `str::lines`

Rust's `str::lines` splits at `'\n'` terminators, does not produce a final
empty line for a trailing `'\n'`, and strips a `'\r'` that immediately
precedes a `'\n'` (but not a `'\r'` at the very end of the string). The
accumulator holds the current line reversed. -/

def stripCR : List Char → List Char
  | '\r' :: cs => cs
  | cs => cs

def rustLinesAux (acc : List Char) : List Char → List String
  | [] => if acc.isEmpty then [] else [String.mk acc.reverse]
  | c :: rest =>
    if c = '\n' then String.mk (stripCR acc).reverse :: rustLinesAux [] rest
    else rustLinesAux (c :: acc) rest

def rustLines (s : String) : List String := rustLinesAux [] s.data

/-! ### Hunk header parsing

`DiffHunk::parse_hunk_header` matches the anchored regex

  `^@@\s*-(\d+)(?:,(\d+))?\s+\+(\d+)(?:,(\d+))?\s*@@`

The character classes involved (`\s`, `\d`) are disjoint from every
literal that can follow them (`-`, `+`, `,`, `@`), so the greedy
left-to-right scan below is exactly the regex's match semantics — no
backtracking can succeed where the scan fails. `\s` is modelled by the
ASCII whitespace class (the inputs of interest are single diff lines).
`old_start.parse::<usize>()?` fails on overflow, yielding no hunk, while
the counts use `parse().unwrap_or(1)`, so an overflowing count becomes 1;
`usize` is taken to be 64 bits. -/

def isRegexSpace (c : Char) : Bool :=
  c = ' ' || c = '\t' || c = '\n' || c = '\r' || c = '\x0b' || c = '\x0c'

def digitsToNat (ds : List Char) : Nat :=
  ds.foldl (fun n c => n * 10 + (c.toNat - '0'.toNat)) 0

/-- Rust `usize::from_str` on a digit run: fails (`None`) on overflow. -/
def parseUsize (ds : List Char) : Option Nat :=
  if digitsToNat ds < 2 ^ 64 then some (digitsToNat ds) else none

/-- The optional `(?:,(\d+))?` group with `parse().unwrap_or(1)`
semantics. When the group is absent the count is 1. When a `','` follows
but no digit does, the whole regex fails: no later atom of the pattern
can consume the `','`. -/
def parseOptCount : List Char → Option (Nat × List Char)
  | ',' :: rest =>
    let ds := rest.takeWhile Char.isDigit
    if ds.isEmpty then none
    else some ((parseUsize ds).getD 1, rest.dropWhile Char.isDigit)
  | rest => some (1, rest)

def DiffHunk.parse_hunk_header (line : String) : Option DiffHunk :=
  match line.data with
  | '@' :: '@' :: rest =>
    let rest := rest.dropWhile isRegexSpace
    match rest with
    | '-' :: rest =>
      let ds₁ := rest.takeWhile Char.isDigit
      let rest := rest.dropWhile Char.isDigit
      if ds₁.isEmpty then none else
      match parseUsize ds₁ with
      | none => none
      | some old_start =>
        match parseOptCount rest with
        | none => none
        | some (old_count, rest) =>
          let ws := rest.takeWhile isRegexSpace
          let rest := rest.dropWhile isRegexSpace
          if ws.isEmpty then none else
          match rest with
          | '+' :: rest =>
            let ds₃ := rest.takeWhile Char.isDigit
            let rest := rest.dropWhile Char.isDigit
            if ds₃.isEmpty then none else
            match parseUsize ds₃ with
            | none => none
            | some new_start =>
              match parseOptCount rest with
              | none => none
              | some (new_count, rest) =>
                match rest.dropWhile isRegexSpace with
                | '@' :: '@' :: _ =>
                  some { old_start, old_count, new_start, new_count }
                | _ => none
          | _ => none
    | _ => none
  | _ => none

/-- Rust `DiffHunk::parse_from_diff`: scan the diff line by line; every line on
which the header regex matches contributes one hunk, all other lines are
ignored. -/
def DiffHunk.parse_from_diff (diff : String) : List DiffHunk :=
  (rustLines diff).filterMap DiffHunk.parse_hunk_header

/-! ## Change classifier (`src/services/context.rs`) -/

/-- Rust `ContextBuilder::infer_commit_type`: the rules apply in source order. -/
def infer_commit_type (changes : StagedChanges) (symbols : List CodeSymbol) :
    CommitType :=
  let categories := changes.files.map (·.category)
  if categories.all (fun c => c = FileCategory.Docs) then CommitType.Docs
  else if categories.all (fun c => c = FileCategory.Test) then CommitType.Test
  else if categories.all (fun c => c = FileCategory.Config) then CommitType.Chore
  else if categories.all (fun c => c = FileCategory.Build) then CommitType.Build
  else if symbols.any (fun s =>
      s.is_added && s.is_public &&
        (s.kind = SymbolKind.Function ∨ s.kind = SymbolKind.Struct ∨
          s.kind = SymbolKind.Trait)) then
    CommitType.Feat
  else if changes.files.length / 2 <
      (changes.files.filter (fun f => f.status = ChangeStatus.Added)).length then
    CommitType.Feat
  else if changes.stats.insertions * 2 < changes.stats.deletions then
    CommitType.Refactor
  else if changes.stats.insertions < 20 && changes.stats.deletions < 20 then
    CommitType.Fix
  else CommitType.Feat

/-- The marker loop of `ContextBuilder::extract_scope_from_path`: scan the
components in order; at a `"src"`/`"lib"` component return the following
component when it exists, is dot-free and is not `main`/`lib`/`mod`; at a
`"packages"`/`"crates"`/`"apps"` component return the following component
when it exists and is dot-free; otherwise keep scanning. -/
def scanScopeMarkers : List String → Option String
  | [] => none
  | c :: rest =>
    if c = "src" ∨ c = "lib" then
      match rest.head? with
      | some next =>
        if ¬ next.data.contains '.' ∧ next ≠ "main" ∧ next ≠ "lib" ∧ next ≠ "mod"
        then some next
        else scanScopeMarkers rest
      | none => scanScopeMarkers rest
    else if c = "packages" ∨ c = "crates" ∨ c = "apps" then
      match rest.head? with
      | some next =>
        if ¬ next.data.contains '.' then some next else scanScopeMarkers rest
      | none => scanScopeMarkers rest
    else scanScopeMarkers rest

/-- Rust `ContextBuilder::extract_scope_from_path`: the marker scan, then the
fallback to the immediate parent directory's name unless it is generic. -/
def extract_scope_from_path (p : PathT) : Option String :=
  match scanScopeMarkers p with
  | some s => some s
  | none =>
    match parentName p with
    | some n => if n = "src" ∨ n = "lib" ∨ n = "." ∨ n = "" then none else some n
    | none => none

/-- Rust `ContextBuilder::infer_scope`: collect the candidates of the
Source-category files (files yielding no candidate contribute nothing);
return the first candidate when all candidates agree, `none` otherwise
(including when there are no candidates). -/
def infer_scope (changes : StagedChanges) : Option String :=
  let scopes := (changes.files.filter
      (fun f => f.category = FileCategory.Source)).filterMap
    (fun f => extract_scope_from_path f.path)
  match scopes with
  | [] => none
  | s :: rest => if rest.all (fun x => x = s) then some s else none

/-! ## Context budget allocator: adaptive diff truncation
(`src/services/context.rs`) -/

/-- The `SKIP_CONTENT_FILES` list. -/
def SKIP_CONTENT_FILES : List String :=
  ["Cargo.lock", "package-lock.json", "yarn.lock", "pnpm-lock.yaml",
   "bun.lockb", "go.sum", "Gemfile.lock", "poetry.lock", "composer.lock"]

/-- Rust `ContextBuilder::should_skip_content`: the file name (empty when
absent) is on the lock-file list. -/
def should_skip_content (p : PathT) : Bool :=
  SKIP_CONTENT_FILES.contains ((fileName p).getD "")

/-- Rust `ContextBuilder::calculate_file_budget`. The `file_count = 0` case is
unreachable in the program (the function is only applied while a
content-eligible file is in hand). -/
def calculate_file_budget (file_count : Nat) (category : FileCategory)
    (max_diff_lines : Nat) : Nat :=
  let weight : Nat :=
    match category with
    | .Source => 3
    | .Test => 2
    | .Docs => 1
    | .Config => 1
    | .Build => 1
    | .Other => 1
  let base_per_file : Nat :=
    if file_count = 1 then max_diff_lines
    else if file_count ≤ 3 then max_diff_lines / 2
    else if file_count ≤ 6 then max_diff_lines / file_count
    else max (max_diff_lines / file_count) 30
  max (base_per_file * weight / 2) 20

def budgetExceededMarker : String := "... (budget exceeded)\n"

def linesTruncatedMarker (n : Nat) : String :=
  "... (" ++ Nat.repr n ++ " lines truncated)\n"

def filesNotShownMarker (n : Nat) : String :=
  "\n... (" ++ Nat.repr n ++ " files not shown due to budget)\n"

def fileHeader (p : PathT) : String := "\n--- " ++ displayPath p ++ " ---\n"

/-- The inner `for line in &lines[..take]` loop of
`ContextBuilder::truncate_diff_adaptive`: before each line the character
budget is checked (`output.len() + line.len() + 1 > char_budget`); on
failure the "budget exceeded" marker is appended and the loop stops. -/
def emitLines (char_budget : Nat) (out : String) : List String → String
  | [] => out
  | l :: ls =>
    if char_budget < out.utf8ByteSize + l.utf8ByteSize + 1 then
      out ++ budgetExceededMarker
    else
      emitLines char_budget (out ++ l ++ "\n") ls

/-- One content file's diff emission: the line loop over the first
`take` lines followed by the per-file truncation marker, which the source
appends whenever `lines.len() > take`. -/
def emitFileBody (char_budget takeN : Nat) (out : String)
    (lines : List String) : String :=
  let out := emitLines char_budget out (lines.take takeN)
  if takeN < lines.length then
    out ++ linesTruncatedMarker (lines.length - takeN)
  else out

/-- The `for file in &files` loop of
`ContextBuilder::truncate_diff_adaptive`, with state
`(output, files_included)`; the two `break`s return the state as is,
`continue` recurses on the remaining files. -/
def truncLoop (char_budget : Nat) (config : Config) (content_count : Nat)
    (out : String) (included : Nat) : List FileChange → String × Nat
  | [] => (out, included)
  | f :: fs =>
    if f.is_binary then truncLoop char_budget config content_count out included fs
    else if char_budget ≤ out.utf8ByteSize then (out, included)
    else
      let header := fileHeader f.path
      if char_budget < out.utf8ByteSize + header.utf8ByteSize + 50 then
        (out, included)
      else
        let out := out ++ header
        let included := included + 1
        if should_skip_content f.path then
          truncLoop char_budget config content_count
            (out ++ "(lock file - content skipped)\n") included fs
        else
          let file_line_budget :=
            min (calculate_file_budget content_count f.category config.max_diff_lines)
              config.max_file_lines
          let lines := rustLines f.diff
          let takeN := min lines.length file_line_budget
          let out := emitFileBody char_budget takeN out lines
          truncLoop char_budget config content_count out included fs

/-- The file loop of `ContextBuilder::truncate_diff_adaptive` run from
the initial state: the files in category-priority order, the
content-eligible file count, empty output, zero files included. -/
def truncResult (changes : StagedChanges) (config : Config)
    (char_budget : Nat) : String × Nat :=
  let files := changes.files_by_priority
  let content_count :=
    (files.filter (fun f => !f.is_binary && !should_skip_content f.path)).length
  truncLoop char_budget config content_count "" 0 files

/-- Rust `ContextBuilder::truncate_diff_adaptive`. -/
def truncate_diff_adaptive (changes : StagedChanges) (config : Config)
    (char_budget : Nat) : String :=
  let res := truncResult changes config char_budget
  let skipped := changes.files.length - res.2
  if 0 < skipped then res.1 ++ filesNotShownMarker skipped else res.1

/-! ## Commit splitter (`src/services/splitter.rs`) -/

structure CommitGroup where
  files : List PathT
  commit_type : CommitType
  scope : Option String
deriving DecidableEq

inductive SplitSuggestion where
  | SingleCommit
  | SuggestSplit (groups : List CommitGroup)
deriving DecidableEq

def GENERIC_DIRS : List String := ["src", "lib", "services", ""]

/-- Rust `CommitSplitter::detect_module`. -/
def detect_module (p : PathT) : String :=
  match parentName p with
  | some parent_name =>
    if GENERIC_DIRS.contains parent_name then
      match fileName p with
      | some n => fileStemOfName n
      | none => "unknown"
    else parent_name
  | none =>
    match fileName p with
    | some n => fileStemOfName n
    | none => "unknown"

/-- A `HashMap<String, Vec<&FileChange>>` modelled as an association list
in key-insertion order (the Rust map's iteration order is arbitrary but
fixed; the claims proved below do not depend on which order it is). -/
abbrev ModuleMap := List (String × List FileChange)

/-- The map update `module_files.entry(key).or_default().push(file)`. -/
def addToModule (key : String) (f : FileChange) : ModuleMap → ModuleMap
  | [] => [(key, [f])]
  | (k, fs) :: rest =>
    if k = key then (k, fs ++ [f]) :: rest else (k, fs) :: addToModule key f rest

def containsKey (mm : ModuleMap) (key : String) : Bool :=
  mm.any (fun kv => kv.1 = key)

/-- Step 1 of `CommitSplitter::analyze`: partition the files into the
per-module map of Source files and the list of support files. -/
def partitionFiles (files : List FileChange) : ModuleMap × List FileChange :=
  files.foldl
    (fun st f =>
      if f.category = FileCategory.Source then
        (addToModule (detect_module f.path) f st.1, st.2)
      else (st.1, st.2 ++ [f]))
    ([], [])

def moduleSize (fs : List FileChange) : Nat :=
  (fs.map (fun f => f.additions + f.deletions)).sum

/-- The `max_by_key` fold over the module map: the last maximum in iteration
order (Rust's `Iterator::max_by_key` keeps the last of equal maxima). -/
def largestAux : Option (String × Nat) → ModuleMap → Option (String × Nat)
  | acc, [] => acc
  | acc, kv :: rest =>
    let s := moduleSize kv.2
    let acc' :=
      match acc with
      | none => (kv.1, s)
      | some (k₀, s₀) => if s₀ ≤ s then (kv.1, s) else (k₀, s₀)
    largestAux (some acc') rest

def largestModule (mm : ModuleMap) : Option String :=
  (largestAux none mm).map Prod.fst

/-- Rust `CommitSplitter::attach_support_files`: a Test file attaches to the
module whose key equals its file stem verbatim when that module exists,
otherwise (like every other category) to the largest module. -/
def attach_support_files (mm : ModuleMap) (support : List FileChange) :
    ModuleMap :=
  match largestModule mm with
  | none => mm
  | some largest =>
    support.foldl
      (fun acc f =>
        let target :=
          match f.category with
          | FileCategory.Test =>
            let stem :=
              match fileName f.path with
              | some n => fileStemOfName n
              | none => ""
            if containsKey acc stem then stem else largest
          | _ => largest
        addToModule target f acc)
      mm

/-- Modelled from the spec: `StagedChanges::subset` is used by the
splitter ("build the corresponding change subset",
spec §4.5) but its definition is not among the provided sources — only
its callers and its tests are. Per those, it keeps exactly the files
whose path is in the given list and recomputes the aggregate stats from
the kept files. -/
def StagedChanges.subset (changes : StagedChanges) (paths : List PathT) :
    StagedChanges :=
  let fs := changes.files.filter (fun f => paths.contains f.path)
  { files := fs
    stats :=
      { files_changed := fs.length
        insertions := (fs.map (·.additions)).sum
        deletions := (fs.map (·.deletions)).sum } }

/-- Step 3 of `CommitSplitter::analyze` for one module's file list. -/
def buildGroup (changes : StagedChanges) (symbols : List CodeSymbol)
    (fs : List FileChange) : CommitGroup :=
  let paths := fs.map (·.path)
  let sub_changes := changes.subset paths
  let sub_symbols := symbols.filter (fun s => paths.contains s.file)
  { files := paths
    commit_type := infer_commit_type sub_changes sub_symbols
    scope := infer_scope sub_changes }

/-- The group list `analyze` builds before the same-pair check and the
final sort. -/
def analyzeGroups (changes : StagedChanges) (symbols : List CodeSymbol) :
    List CommitGroup :=
  let st := partitionFiles changes.files
  (attach_support_files st.1 st.2).map (fun kv => buildGroup changes symbols kv.2)

/-- Rust `CommitSplitter::group_change_size`. -/
def group_change_size (group : CommitGroup) (changes : StagedChanges) : Nat :=
  ((changes.files.filter (fun f => group.files.contains f.path)).map
    (fun f => f.additions + f.deletions)).sum

/-- The `groups.iter().all(...)` same-(type, scope) test against the
first group. -/
def allSamePair : List CommitGroup → Bool
  | [] => true
  | g :: rest =>
    rest.all (fun x => x.commit_type = g.commit_type ∧ x.scope = g.scope)

/-- Rust `CommitSplitter::analyze`. -/
def analyze (changes : StagedChanges) (symbols : List CodeSymbol) :
    SplitSuggestion :=
  let st := partitionFiles changes.files
  if st.1.length ≤ 1 then SplitSuggestion.SingleCommit
  else
    let groups := analyzeGroups changes symbols
    let sorted := sortStable
      (fun a b => group_change_size b changes < group_change_size a changes)
      groups
    if 2 ≤ groups.length then
      if allSamePair groups then SplitSuggestion.SingleCommit
      else SplitSuggestion.SuggestSplit sorted
    else SplitSuggestion.SuggestSplit sorted

/-! ## Properties of the stable sort -/

theorem insertStable_decomp (bef : α → α → Bool) (x : α) (l : List α) :
    ∃ l₁ l₂, insertStable bef x l = l₁ ++ x :: l₂ ∧ l = l₁ ++ l₂ := by
  induction l with
  | nil => exact ⟨[], [], rfl, rfl⟩
  | cons y ys ih =>
    by_cases h : bef x y = true
    · exact ⟨[], y :: ys, by simp [insertStable, h], rfl⟩
    · obtain ⟨l₁, l₂, he, hl⟩ := ih
      exact ⟨y :: l₁, l₂, by simp [insertStable, h, he], by simp [hl]⟩

theorem insertStable_perm (bef : α → α → Bool) (x : α) (l : List α) :
    (insertStable bef x l).Perm (x :: l) := by
  obtain ⟨l₁, l₂, he, hl⟩ := insertStable_decomp bef x l
  rw [he, hl]
  exact List.perm_middle

theorem sortStable_perm (bef : α → α → Bool) (l : List α) :
    (sortStable bef l).Perm l := by
  suffices h : ∀ (l acc : List α),
      (l.foldl (fun acc x => insertStable bef x acc) acc).Perm (acc ++ l) by
    simpa using h l []
  intro l
  induction l with
  | nil => intro acc; simp
  | cons x xs ih =>
    intro acc
    have h1 := ih (insertStable bef x acc)
    have h2 : (insertStable bef x acc ++ xs).Perm ((x :: acc) ++ xs) :=
      (insertStable_perm bef x acc).append_right xs
    have h3 : ((x :: acc) ++ xs).Perm (acc ++ x :: xs) := List.perm_middle.symm
    exact (h1.trans h2).trans h3

theorem length_filter_bool_partition (p : α → Bool) (l : List α) :
    (l.filter p).length + (l.filter (fun a => !p a)).length = l.length := by
  induction l with
  | nil => rfl
  | cons a l ih => cases hpa : p a <;> simp [List.filter_cons, hpa] <;> omega

/-! ## Theorems -/

/-- C5: for every hunk and line range, `intersects_new(line_start,
line_end)` is true iff `line_start < new_start + new_count ∧ line_end >
new_start`, and `intersects_old` is the same form over
`old_start`/`old_count` (exclusive upper bound); concretely, a hunk with
`new_start = 10, new_count = 5` gives `intersects_new 11 14 = true` and
`intersects_new 20 25 = false`, and a hunk with `old_start = 10,
old_count = 5` gives `intersects_old 10 15 = true` and
`intersects_old 15 20 = false`. -/
theorem hunk_intersection_spec :
    (∀ (h : DiffHunk) (ls le : Nat),
      h.intersects_new ls le = true ↔
        ls < h.new_start + h.new_count ∧ le > h.new_start) ∧
    (∀ (h : DiffHunk) (ls le : Nat),
      h.intersects_old ls le = true ↔
        ls < h.old_start + h.old_count ∧ le > h.old_start) ∧
    DiffHunk.intersects_new ⟨0, 0, 10, 5⟩ 11 14 = true ∧
    DiffHunk.intersects_new ⟨0, 0, 10, 5⟩ 20 25 = false ∧
    DiffHunk.intersects_old ⟨10, 5, 0, 0⟩ 10 15 = true ∧
    DiffHunk.intersects_old ⟨10, 5, 0, 0⟩ 15 20 = false := by
  refine ⟨?_, ?_, by decide, by decide, by decide, by decide⟩ <;>
    · intro h ls le
      simp [DiffHunk.intersects_new, DiffHunk.intersects_old]

/-- C9, counterexample: a pure-deletion hunk (`new_count = 0`) does not
make `intersects_new` false on every range: the range (5, 15) strictly
straddles `new_start = 9` and intersects. Symmetrically for
`old_count = 0`, and the extractor's any-hunk test also fires. -/
theorem zero_count_hunk_intersects_straddling_range :
    (DiffHunk.mk 1 1 9 0).new_count = 0 ∧
    DiffHunk.intersects_new ⟨1, 1, 9, 0⟩ 5 15 = true ∧
    (DiffHunk.mk 9 0 1 1).old_count = 0 ∧
    DiffHunk.intersects_old ⟨9, 0, 1, 1⟩ 5 15 = true ∧
    spanIntersectsAnyHunk [⟨1, 1, 9, 0⟩] true 5 15 = true := by decide

/-- C9, amended: for a hunk with `new_count = 0`, `intersects_new` holds
exactly when the line range strictly straddles `new_start`
(`line_start < new_start < line_end`) — not never; symmetrically for
`old_count = 0` and `intersects_old`. Such hunks can therefore still
cause the symbol extractor to attribute a symbol whose span strictly
contains the hunk's start line. -/
theorem zero_count_hunk_intersection_characterization :
    ∀ (h : DiffHunk) (ls le : Nat),
      (h.new_count = 0 →
        (h.intersects_new ls le = true ↔ ls < h.new_start ∧ h.new_start < le)) ∧
      (h.old_count = 0 →
        (h.intersects_old ls le = true ↔ ls < h.old_start ∧ h.old_start < le)) := by
  intro h ls le
  constructor <;> intro h0 <;>
    simp [DiffHunk.intersects_new, DiffHunk.intersects_old, h0]

/-- Witness for the amended C9 at the concrete hunk of the
counterexample. -/
theorem zero_count_hunk_intersection_characterization_witness :
    DiffHunk.intersects_new ⟨1, 1, 9, 0⟩ 5 15 = true ↔ 5 < 9 ∧ 9 < 15 :=
  (zero_count_hunk_intersection_characterization ⟨1, 1, 9, 0⟩ 5 15).1 rfl

/-- C4: when the four all-of-one-category rules do not fire, any symbol
with `added = true`, `public = true` and kind in
{Function, Struct, Trait} makes `infer_commit_type` return `Feat` —
regardless of the size statistics that the later under-20 rule would
consult. -/
theorem classifier_new_public_symbol_yields_feat
    (changes : StagedChanges) (symbols : List CodeSymbol)
    (hd : ∃ f ∈ changes.files, f.category ≠ FileCategory.Docs)
    (ht : ∃ f ∈ changes.files, f.category ≠ FileCategory.Test)
    (hc : ∃ f ∈ changes.files, f.category ≠ FileCategory.Config)
    (hb : ∃ f ∈ changes.files, f.category ≠ FileCategory.Build)
    (hs : ∃ s ∈ symbols, s.is_added = true ∧ s.is_public = true ∧
      (s.kind = SymbolKind.Function ∨ s.kind = SymbolKind.Struct ∨
        s.kind = SymbolKind.Trait)) :
    infer_commit_type changes symbols = CommitType.Feat := by
  have notAll : ∀ (cat : FileCategory), (∃ f ∈ changes.files, f.category ≠ cat) →
      ¬ ((changes.files.map (·.category)).all (fun c => decide (c = cat)) = true) := by
    intro cat hex hall
    obtain ⟨f, hf, hne⟩ := hex
    rw [List.all_eq_true] at hall
    exact hne (by simpa using hall f.category (List.mem_map_of_mem _ hf))
  have hany : (symbols.any (fun s => s.is_added && s.is_public &&
      decide (s.kind = SymbolKind.Function ∨ s.kind = SymbolKind.Struct ∨
        s.kind = SymbolKind.Trait))) = true := by
    rw [List.any_eq_true]
    obtain ⟨s, hsmem, ha, hp, hk⟩ := hs
    exact ⟨s, hsmem, by simp [ha, hp, hk]⟩
  simp only [infer_commit_type]
  rw [if_neg (notAll _ hd), if_neg (notAll _ ht), if_neg (notAll _ hc),
    if_neg (notAll _ hb), if_pos hany]

/-- Witness for C4: a single small Source-file change plus one added
public function symbol classifies as `Feat` although both totals are
under 20. -/
theorem classifier_new_public_symbol_yields_feat_witness :
    infer_commit_type
      { files := [{ path := ["src", "alpha", "a.rs"], status := .Modified,
                    diff := "", additions := 5, deletions := 2,
                    category := .Source, is_binary := false }],
        stats := ⟨1, 5, 2⟩ }
      [{ kind := .Function, name := "f", file := ["src", "alpha", "a.rs"],
         line := 1, is_public := true, is_added := true }] = CommitType.Feat :=
  classifier_new_public_symbol_yields_feat _ _
    ⟨_, List.mem_singleton_self _, by decide⟩
    ⟨_, List.mem_singleton_self _, by decide⟩
    ⟨_, List.mem_singleton_self _, by decide⟩
    ⟨_, List.mem_singleton_self _, by decide⟩
    ⟨_, List.mem_singleton_self _, by decide, by decide, Or.inl rfl⟩

/-- C6: the hunk parser is total and scans line by line: each line
matching the header pattern yields exactly one hunk (omitted counts
defaulting to 1), non-matching and malformed lines yield no hunk and no
error, empty input yields no hunks, and the two concrete headers of the
spec parse to the stated fields. -/
theorem hunk_parser_spec :
    DiffHunk.parse_from_diff "" = [] ∧
    DiffHunk.parse_from_diff "@@ -10,5 +12,7 @@" = [⟨10, 5, 12, 7⟩] ∧
    DiffHunk.parse_from_diff "@@ -1 +1 @@" = [⟨1, 1, 1, 1⟩] ∧
    DiffHunk.parse_hunk_header "@@ -10, +2 @@" = none ∧
    DiffHunk.parse_hunk_header "not a header" = none ∧
    DiffHunk.parse_from_diff
        "diff --git a/f b/f\n@@ -10,5 +12,7 @@\n+added\n@@ -1 +1 @@\ncontext @@ -3 +4 @@" =
      [⟨10, 5, 12, 7⟩, ⟨1, 1, 1, 1⟩] ∧
    ∀ diff, DiffHunk.parse_from_diff diff =
      (rustLines diff).filterMap DiffHunk.parse_hunk_header := by
  exact ⟨by decide, by decide, by decide, by decide, by decide, by decide,
    fun _ => rfl⟩

/-- The core of `infer_scope` after candidate collection: the first
candidate when all candidates agree with it, `none` otherwise. -/
def firstIfAllEq (scopes : List String) : Option String :=
  match scopes with
  | [] => none
  | s :: rest => if rest.all (fun x => x = s) then some s else none

theorem infer_scope_def (changes : StagedChanges) :
    infer_scope changes =
      firstIfAllEq ((changes.files.filter
          (fun f => decide (f.category = FileCategory.Source))).filterMap
        (fun f => extract_scope_from_path f.path)) := rfl

theorem firstIfAllEq_eq_some (l : List String) (s : String) :
    firstIfAllEq l = some s ↔ l ≠ [] ∧ ∀ x ∈ l, x = s := by
  cases l with
  | nil => simp [firstIfAllEq]
  | cons a rest =>
    simp only [firstIfAllEq]
    by_cases hall : rest.all (fun x => decide (x = a)) = true
    · rw [if_pos hall]
      simp only [List.all_eq_true, decide_eq_true_eq] at hall
      constructor
      · intro h
        have ha : a = s := Option.some_inj.mp h
        subst ha
        refine ⟨by simp, ?_⟩
        intro x hx
        rcases List.mem_cons.mp hx with rfl | hx
        · rfl
        · exact hall x hx
      · rintro ⟨-, hAll⟩
        rw [hAll a (List.mem_cons_self a rest)]
    · rw [if_neg hall]
      simp only [List.all_eq_true, decide_eq_true_eq] at hall
      constructor
      · intro h; cases h
      · rintro ⟨-, hAll⟩
        refine absurd (fun x hx => ?_) hall
        rw [hAll x (List.mem_cons_of_mem a hx), hAll a (List.mem_cons_self a rest)]

/-- C7, counterexample: `infer_scope` collects candidates with
`filter_map`, so a Source file that yields no candidate is simply
ignored. With Source files `src/foo/a.rs` (candidate `"foo"`) and `b.rs`
(no candidate), `infer_scope` returns `some "foo"` although not every
Source file yields that candidate — the claim's iff demands `none`
here. -/
theorem infer_scope_ignores_candidateless_source_files :
    infer_scope
      { files := [{ path := ["src", "foo", "a.rs"], status := .Modified,
                    diff := "", additions := 1, deletions := 1,
                    category := .Source, is_binary := false },
                  { path := ["b.rs"], status := .Modified,
                    diff := "", additions := 1, deletions := 1,
                    category := .Source, is_binary := false }],
        stats := ⟨2, 2, 2⟩ } = some "foo" ∧
    extract_scope_from_path ["b.rs"] = none ∧
    ¬ (∀ f ∈ ([{ path := ["src", "foo", "a.rs"], status := .Modified,
                 diff := "", additions := 1, deletions := 1,
                 category := .Source, is_binary := false },
               { path := ["b.rs"], status := .Modified,
                 diff := "", additions := 1, deletions := 1,
                 category := .Source, is_binary := false }] : List FileChange),
        f.category = FileCategory.Source →
          extract_scope_from_path f.path = some "foo") := by
  refine ⟨by decide, by decide, by decide⟩

/-- C7, amended: `infer_scope` returns `some s` iff at least one
Source-category file yields the candidate `s` and every Source-category
file yields either that same candidate or no candidate at all; it
returns `none` otherwise (including when there are zero candidates). -/
theorem infer_scope_characterization (changes : StagedChanges) (s : String) :
    infer_scope changes = some s ↔
      (∃ f ∈ changes.files, f.category = FileCategory.Source ∧
        extract_scope_from_path f.path = some s) ∧
      (∀ f ∈ changes.files, f.category = FileCategory.Source →
        extract_scope_from_path f.path = some s ∨
          extract_scope_from_path f.path = none) := by
  have mem_scopes : ∀ x : String,
      (x ∈ (changes.files.filter
          (fun f => decide (f.category = FileCategory.Source))).filterMap
        (fun f => extract_scope_from_path f.path)) ↔
      ∃ f ∈ changes.files, f.category = FileCategory.Source ∧
        extract_scope_from_path f.path = some x := by
    intro x
    simp only [List.mem_filterMap, List.mem_filter, decide_eq_true_eq]
    constructor
    · rintro ⟨f, ⟨hf, hcat⟩, hex⟩; exact ⟨f, hf, hcat, hex⟩
    · rintro ⟨f, hf, hcat, hex⟩; exact ⟨f, ⟨hf, hcat⟩, hex⟩
  rw [infer_scope_def, firstIfAllEq_eq_some]
  constructor
  · rintro ⟨hne, hAll⟩
    obtain ⟨x, hx⟩ := List.exists_mem_of_ne_nil _ hne
    have hxs : x = s := hAll x hx
    subst hxs
    refine ⟨(mem_scopes x).mp hx, ?_⟩
    intro f hf hcat
    match hex : extract_scope_from_path f.path with
    | none => exact Or.inr rfl
    | some t =>
      exact Or.inl (by rw [hAll t ((mem_scopes t).mpr ⟨f, hf, hcat, hex⟩)])
  · rintro ⟨⟨f, hf, hcat, hex⟩, hall⟩
    have hsMem := (mem_scopes s).mpr ⟨f, hf, hcat, hex⟩
    refine ⟨List.ne_nil_of_mem hsMem, ?_⟩
    intro x hx
    obtain ⟨g, hg, hgcat, hgex⟩ := (mem_scopes x).mp hx
    rcases hall g hg hgcat with h | h
    · rw [hgex] at h; exact Option.some_inj.mp h
    · rw [hgex] at h; exact absurd h (by simp)

/-- C8: when the truncation loop reaches a non-binary file whose
filename is on the content-skippable (lock-file) list and its header
still fits, the file contributes exactly its header plus the fixed skip
placeholder, and the loop continues with a state that does not depend on
the file's diff content in any way. -/
theorem skip_content_file_renders_header_and_placeholder
    (char_budget : Nat) (config : Config) (content_count : Nat)
    (out : String) (included : Nat) (f : FileChange) (fs : List FileChange)
    (hbin : f.is_binary = false)
    (hskip : should_skip_content f.path = true)
    (h1 : out.utf8ByteSize < char_budget)
    (h2 : out.utf8ByteSize + (fileHeader f.path).utf8ByteSize + 50 ≤ char_budget) :
    truncLoop char_budget config content_count out included (f :: fs) =
      truncLoop char_budget config content_count
        (out ++ fileHeader f.path ++ "(lock file - content skipped)\n")
        (included + 1) fs := by
  simp only [truncLoop, hbin, Bool.false_eq_true, if_false]
  rw [if_neg (Nat.not_le.mpr h1), if_neg (Nat.not_lt.mpr h2), if_pos hskip]

/-- Witness for C8 at a concrete `Cargo.lock` change whose diff content
would otherwise produce raw lines. -/
theorem skip_content_file_renders_header_and_placeholder_witness :
    truncLoop 1000 ⟨4, 5, 0⟩ 1 "" 0
      [{ path := ["Cargo.lock"], status := .Modified, diff := "x\ny\nz\n",
         additions := 3, deletions := 0, category := .Config,
         is_binary := false }] =
    truncLoop 1000 ⟨4, 5, 0⟩ 1
      ("" ++ fileHeader ["Cargo.lock"] ++ "(lock file - content skipped)\n")
      1 [] :=
  skip_content_file_renders_header_and_placeholder 1000 ⟨4, 5, 0⟩ 1 "" 0 _ []
    rfl (by decide) (by decide) (by decide)

/-- The `files_included` counter only ever counts non-binary files:
binary files take the `continue` branch without incrementing it. -/
theorem truncLoop_included_le (char_budget : Nat) (config : Config)
    (content_count : Nat) :
    ∀ (fs : List FileChange) (out : String) (inc : Nat),
      (truncLoop char_budget config content_count out inc fs).2 ≤
        inc + (fs.filter (fun f => !f.is_binary)).length := by
  intro fs
  induction fs with
  | nil => intro out inc; simp [truncLoop]
  | cons f rest ih =>
    intro out inc
    by_cases hbin : f.is_binary = true
    · simp only [truncLoop, hbin, if_true, List.filter_cons, Bool.not_true]
      exact Nat.le_trans (ih out inc) (by simp)
    · have hbin' : f.is_binary = false := by
        cases hb : f.is_binary
        · rfl
        · exact absurd hb hbin
      have hflt : (List.filter (fun f => !f.is_binary) (f :: rest)).length
          = (List.filter (fun f => !f.is_binary) rest).length + 1 := by
        simp [List.filter_cons, hbin']
      simp only [truncLoop, hbin', Bool.false_eq_true, if_false, hflt]
      split
      · omega
      · split
        · omega
        · split
          · exact Nat.le_trans (ih _ (inc + 1)) (by omega)
          · exact Nat.le_trans (ih _ (inc + 1)) (by omega)

theorem truncate_diff_adaptive_def (changes : StagedChanges)
    (config : Config) (char_budget : Nat) :
    truncate_diff_adaptive changes config char_budget =
      if 0 < changes.files.length - (truncResult changes config char_budget).2
      then (truncResult changes config char_budget).1 ++
        filesNotShownMarker
          (changes.files.length - (truncResult changes config char_budget).2)
      else (truncResult changes config char_budget).1 := rfl

/-- C10: binary files are never emitted but are counted in the trailing
omitted-files marker: whenever the change set contains a binary file,
the truncated diff ends with the "files not shown due to budget" marker
and its count is at least the number of binary files. -/
theorem binary_files_counted_in_omitted_marker
    (changes : StagedChanges) (config : Config) (char_budget : Nat)
    (hbin : 0 < (changes.files.filter (fun f => f.is_binary)).length) :
    ∃ pre k,
      truncate_diff_adaptive changes config char_budget =
        pre ++ filesNotShownMarker k ∧
      (changes.files.filter (fun f => f.is_binary)).length ≤ k := by
  have hperm : (changes.files_by_priority).Perm changes.files :=
    sortStable_perm _ _
  have hinc :
      (truncResult changes config char_budget).2 ≤
        (changes.files.filter (fun f => !f.is_binary)).length := by
    have h1 := truncLoop_included_le char_budget config
      ((changes.files_by_priority.filter
        (fun f => !f.is_binary && !should_skip_content f.path)).length)
      changes.files_by_priority "" 0
    have h2 : ((changes.files_by_priority.filter
        (fun f => !f.is_binary)).length) =
        (changes.files.filter (fun f => !f.is_binary)).length :=
      (hperm.filter _).length_eq
    calc (truncResult changes config char_budget).2
        ≤ 0 + (changes.files_by_priority.filter
            (fun f => !f.is_binary)).length := h1
      _ = (changes.files.filter (fun f => !f.is_binary)).length := by rw [h2]; omega
  have hpart := length_filter_bool_partition (fun f => f.is_binary) changes.files
  have hskip : 0 < changes.files.length - (truncResult changes config char_budget).2 := by
    omega
  rw [truncate_diff_adaptive_def, if_pos hskip]
  exact ⟨(truncResult changes config char_budget).1, _, rfl, by omega⟩

/-- Witness for C10: a lone binary file yields the marker counting it. -/
theorem binary_files_counted_in_omitted_marker_witness :
    ∃ pre k,
      truncate_diff_adaptive
          { files := [{ path := ["img.png"], status := .Added, diff := "",
                        additions := 0, deletions := 0,
                        category := .Other, is_binary := true }],
            stats := ⟨1, 0, 0⟩ } ⟨4, 5, 0⟩ 1000 =
        pre ++ filesNotShownMarker k ∧
      (([{ path := ["img.png"], status := .Added, diff := "",
           additions := 0, deletions := 0,
           category := FileCategory.Other,
           is_binary := true }] : List FileChange).filter
        (fun f => f.is_binary)).length ≤ k :=
  binary_files_counted_in_omitted_marker _ ⟨4, 5, 0⟩ 1000 (by decide)

/-- The text the line loop produces for a list of emitted diff lines:
each line followed by the newline `push('\n')` appends. -/
def joinNL : List String → String
  | [] => ""
  | l :: ls => l ++ "\n" ++ joinNL ls

theorem out_joinNL_nil (out : String) : out ++ joinNL [] = out := by
  simp [joinNL, String.append_empty]

theorem out_joinNL_cons (out l : String) (pre : List String) :
    out ++ joinNL (l :: pre) = (out ++ l ++ "\n") ++ joinNL pre := by
  show out ++ (l ++ "\n" ++ joinNL pre) = (out ++ l ++ "\n") ++ joinNL pre
  rw [← String.append_assoc, ← String.append_assoc]

/-- Behaviour of the inner line loop: either every line fits (checked
before each line) and all are emitted, or the loop emits the fitting
prefix, appends the "budget exceeded" marker at the first line that
would overflow, and emits nothing further. -/
theorem emitLines_spec (B : Nat) :
    ∀ (tl : List String) (out : String),
      (emitLines B out tl = out ++ joinNL tl ∧
        ∀ pre l post, tl = pre ++ l :: post →
          (out ++ joinNL pre).utf8ByteSize + l.utf8ByteSize + 1 ≤ B) ∨
      (∃ pre l post, tl = pre ++ l :: post ∧
        emitLines B out tl = out ++ joinNL pre ++ budgetExceededMarker ∧
        B < (out ++ joinNL pre).utf8ByteSize + l.utf8ByteSize + 1 ∧
        ∀ p₁ l' p₂, pre = p₁ ++ l' :: p₂ →
          (out ++ joinNL p₁).utf8ByteSize + l'.utf8ByteSize + 1 ≤ B) := by
  intro tl
  induction tl with
  | nil =>
    intro out
    left
    refine ⟨by simp [emitLines, out_joinNL_nil], ?_⟩
    intro pre l post h
    exact absurd h (by simp)
  | cons l ls ih =>
    intro out
    by_cases hfit : B < out.utf8ByteSize + l.utf8ByteSize + 1
    · right
      refine ⟨[], l, ls, rfl, ?_, ?_, ?_⟩
      · rw [show emitLines B out (l :: ls) = out ++ budgetExceededMarker from
          by simp [emitLines, hfit], out_joinNL_nil]
      · rw [out_joinNL_nil]; exact hfit
      · intro p₁ l' p₂ h; exact absurd h (by simp)
    · have hstep : emitLines B out (l :: ls) =
          emitLines B (out ++ l ++ "\n") ls := by
        simp [emitLines, hfit]
      rcases ih (out ++ l ++ "\n") with ⟨he, hfits⟩ |
        ⟨pre, l₀, post, htl, he, hb, hfits⟩
      · left
        constructor
        · rw [hstep, he, ← out_joinNL_cons]
        · intro pre p post h
          cases pre with
          | nil =>
            obtain ⟨rfl, -⟩ : l = p ∧ ls = post := by
              simpa using h
            rw [out_joinNL_nil]
            omega
          | cons q pre' =>
            obtain ⟨rfl, hls⟩ : l = q ∧ ls = pre' ++ p :: post := by
              simpa using h
            rw [out_joinNL_cons]
            exact hfits pre' p post hls
      · right
        refine ⟨l :: pre, l₀, post, by simp [htl], ?_, ?_, ?_⟩
        · rw [hstep, he, ← out_joinNL_cons]
        · rw [out_joinNL_cons]; exact hb
        · intro p₁ l' p₂ h
          cases p₁ with
          | nil =>
            obtain ⟨rfl, -⟩ : l = l' ∧ pre = p₂ := by
              simpa using h
            rw [out_joinNL_nil]
            omega
          | cons q p₁' =>
            obtain ⟨rfl, hpre⟩ : l = q ∧ pre = p₁' ++ l' :: p₂ := by
              simpa using h
            rw [out_joinNL_cons]
            exact hfits p₁' l' p₂ hpre

/-- C1, counterexample: after the character budget is exhausted
mid-file, the code appends the "budget exceeded" marker and then *still*
appends the per-file "5 lines truncated" marker (the file's line budget
is 5 but only 4 lines fit in 64 characters) — further output of the
claimed-forbidden kind follows the exceeded marker. -/
theorem truncation_continues_after_budget_exceeded :
    truncate_diff_adaptive
      { files := [{ path := ["a.rs"], status := .Modified,
                    diff := "aaaaaaaaaa\naaaaaaaaaa\naaaaaaaaaa\naaaaaaaaaa\naaaaaaaaaa\naaaaaaaaaa\naaaaaaaaaa\naaaaaaaaaa\naaaaaaaaaa\naaaaaaaaaa",
                    additions := 10, deletions := 0,
                    category := .Source, is_binary := false }],
        stats := ⟨1, 10, 0⟩ } ⟨4, 5, 0⟩ 64 =
      "\n--- a.rs ---\naaaaaaaaaa\naaaaaaaaaa\naaaaaaaaaa\naaaaaaaaaa\n" ++
        budgetExceededMarker ++ linesTruncatedMarker 5 ∧
    linesTruncatedMarker 5 ≠ "" := ⟨by decide, by decide⟩

/-- C1, amended: the character budget is checked before each emitted
line; at the first line that would overflow, the "budget exceeded"
marker is appended and no further diff line of that file is emitted —
but the per-file "N lines truncated" marker is still appended exactly
when the file had more lines than its line budget (`take`), independent
of whether the character budget was exhausted, and the file loop itself
continues with the remaining files. -/
theorem truncation_line_loop_characterization (B : Nat) (out : String)
    (lines : List String) (takeN : Nat) :
    ((emitLines B out (lines.take takeN) = out ++ joinNL (lines.take takeN) ∧
       ∀ pre l post, lines.take takeN = pre ++ l :: post →
         (out ++ joinNL pre).utf8ByteSize + l.utf8ByteSize + 1 ≤ B) ∨
     (∃ pre l post, lines.take takeN = pre ++ l :: post ∧
       emitLines B out (lines.take takeN) =
         out ++ joinNL pre ++ budgetExceededMarker ∧
       B < (out ++ joinNL pre).utf8ByteSize + l.utf8ByteSize + 1 ∧
       ∀ p₁ l' p₂, pre = p₁ ++ l' :: p₂ →
         (out ++ joinNL p₁).utf8ByteSize + l'.utf8ByteSize + 1 ≤ B)) ∧
    emitFileBody B takeN out lines =
      (if takeN < lines.length then
        emitLines B out (lines.take takeN) ++
          linesTruncatedMarker (lines.length - takeN)
      else emitLines B out (lines.take takeN)) :=
  ⟨emitLines_spec B (lines.take takeN) out, rfl⟩

/-! ### The descending stable sort used by the splitter -/

theorem pairwise_insertStable_desc (k : α → Nat) (x : α) (l : List α)
    (h : l.Pairwise (fun a b => k b ≤ k a)) :
    (insertStable (fun a b => decide (k b < k a)) x l).Pairwise
      (fun a b => k b ≤ k a) := by
  induction l with
  | nil => simp [insertStable]
  | cons y ys ih =>
    rw [List.pairwise_cons] at h
    obtain ⟨hy, hys⟩ := h
    by_cases hxy : k y < k x
    · rw [show insertStable (fun a b => decide (k b < k a)) x (y :: ys) =
          x :: y :: ys from by simp [insertStable, hxy]]
      rw [List.pairwise_cons]
      refine ⟨?_, List.pairwise_cons.mpr ⟨hy, hys⟩⟩
      intro b hb
      rcases List.mem_cons.mp hb with rfl | hb
      · omega
      · have := hy b hb; omega
    · rw [show insertStable (fun a b => decide (k b < k a)) x (y :: ys) =
          y :: insertStable (fun a b => decide (k b < k a)) x ys from
          by simp [insertStable, hxy]]
      rw [List.pairwise_cons]
      refine ⟨?_, ih hys⟩
      intro b hb
      rcases List.mem_cons.mp
          (((insertStable_perm _ x ys).mem_iff).mp hb) with rfl | hb'
      · omega
      · exact hy b hb'

theorem pairwise_sortStable_desc (k : α → Nat) (l : List α) :
    (sortStable (fun a b => decide (k b < k a)) l).Pairwise
      (fun a b => k b ≤ k a) := by
  suffices h : ∀ (l acc : List α), acc.Pairwise (fun a b => k b ≤ k a) →
      (l.foldl (fun acc x =>
        insertStable (fun a b => decide (k b < k a)) x acc) acc).Pairwise
          (fun a b => k b ≤ k a) by
    exact h l [] (by simp)
  intro l
  induction l with
  | nil => intro acc h; exact h
  | cons x xs ih =>
    intro acc h
    exact ih _ (pairwise_insertStable_desc k x acc h)

theorem filter_insertStable_of_ne (bef : α → α → Bool) (p : α → Bool)
    (x : α) (l : List α) (hx : p x = false) :
    (insertStable bef x l).filter p = l.filter p := by
  obtain ⟨l₁, l₂, he, hl⟩ := insertStable_decomp bef x l
  rw [he, hl, List.filter_append, List.filter_append, List.filter_cons, hx]
  simp

theorem filter_insertStable_of_eq (k : α → Nat) (c : Nat) (x : α)
    (l : List α) (hx : k x = c)
    (h : l.Pairwise (fun a b => k b ≤ k a)) :
    (insertStable (fun a b => decide (k b < k a)) x l).filter
        (fun a => decide (k a = c)) =
      l.filter (fun a => decide (k a = c)) ++ [x] := by
  induction l with
  | nil => simp [insertStable, List.filter, hx]
  | cons y ys ih =>
    rw [List.pairwise_cons] at h
    obtain ⟨hy, hys⟩ := h
    by_cases hxy : k y < k x
    · rw [show insertStable (fun a b => decide (k b < k a)) x (y :: ys) =
          x :: y :: ys from by simp [insertStable, hxy]]
      have hnil : (y :: ys).filter (fun a => decide (k a = c)) = [] := by
        rw [List.filter_eq_nil_iff]
        intro a ha
        rcases List.mem_cons.mp ha with rfl | ha
        · simp only [decide_eq_true_eq]; omega
        · have := hy a ha; simp only [decide_eq_true_eq]; omega
      rw [hnil, List.filter_cons, hnil]
      simp [hx]
    · rw [show insertStable (fun a b => decide (k b < k a)) x (y :: ys) =
          y :: insertStable (fun a b => decide (k b < k a)) x ys from
          by simp [insertStable, hxy]]
      rw [List.filter_cons, List.filter_cons, ih hys]
      by_cases hyc : k y = c <;> simp [hyc]

theorem filter_sortStable_desc (k : α → Nat) (c : Nat) (l : List α) :
    (sortStable (fun a b => decide (k b < k a)) l).filter
        (fun a => decide (k a = c)) =
      l.filter (fun a => decide (k a = c)) := by
  suffices h : ∀ (l acc : List α), acc.Pairwise (fun a b => k b ≤ k a) →
      ((l.foldl (fun acc x =>
          insertStable (fun a b => decide (k b < k a)) x acc) acc).filter
        (fun a => decide (k a = c))) =
        acc.filter (fun a => decide (k a = c)) ++
          l.filter (fun a => decide (k a = c)) by
    simpa using h l [] (by simp)
  intro l
  induction l with
  | nil => intro acc h; simp
  | cons x xs ih =>
    intro acc h
    have hstep : ((x :: xs).foldl (fun acc x =>
        insertStable (fun a b => decide (k b < k a)) x acc) acc) =
        xs.foldl (fun acc x =>
          insertStable (fun a b => decide (k b < k a)) x acc)
          (insertStable (fun a b => decide (k b < k a)) x acc) := rfl
    rw [hstep, ih _ (pairwise_insertStable_desc k x acc h), List.filter_cons]
    by_cases hx : k x = c
    · rw [filter_insertStable_of_eq k c x acc hx h]
      simp [hx]
    · rw [filter_insertStable_of_ne _ _ x acc (by simp [hx])]
      simp [hx]

/-! ### The module map of the splitter -/

theorem containsKey_addToModule (key : String) (f : FileChange) :
    ∀ (mm : ModuleMap), containsKey mm key = true →
    ∀ k', containsKey (addToModule key f mm) k' = containsKey mm k' := by
  intro mm
  induction mm with
  | nil => intro h; simp [containsKey] at h
  | cons kv rest ih =>
    obtain ⟨k₀, fs⟩ := kv
    intro h k'
    by_cases hk : k₀ = key
    · simp [addToModule, hk, containsKey, List.any_cons]
    · have hrest : containsKey rest key = true := by
        simpa [containsKey, List.any_cons, hk] using h
      have hih := ih hrest k'
      simp only [containsKey] at hih
      rw [show addToModule key f ((k₀, fs) :: rest) =
        (k₀, fs) :: addToModule key f rest from by simp [addToModule, hk]]
      simp only [containsKey, List.any_cons]
      rw [hih]

theorem length_addToModule (key : String) (f : FileChange) :
    ∀ (mm : ModuleMap), containsKey mm key = true →
    (addToModule key f mm).length = mm.length := by
  intro mm
  induction mm with
  | nil => intro h; simp [containsKey] at h
  | cons kv rest ih =>
    obtain ⟨k₀, fs⟩ := kv
    intro h
    by_cases hk : k₀ = key
    · simp [addToModule, hk]
    · have hrest : containsKey rest key = true := by
        simpa [containsKey, List.any_cons, hk] using h
      simp [addToModule, hk, ih hrest]

theorem largestAux_key :
    ∀ (mm : ModuleMap) (acc : Option (String × Nat)) (k : String) (s : Nat),
      largestAux acc mm = some (k, s) →
      acc = some (k, s) ∨ containsKey mm k = true := by
  intro mm
  induction mm with
  | nil =>
    intro acc k s h
    exact Or.inl h
  | cons kv rest ih =>
    intro acc k s h
    have hconsKey : ∀ rest', containsKey rest' k = true →
        containsKey (kv :: rest') k = true := by
      intro rest' hr
      have hr' : rest'.any (fun kv => decide (kv.1 = k)) = true := hr
      simp [containsKey, List.any_cons, hr']
    cases acc with
    | none =>
      rw [show largestAux none (kv :: rest) =
        largestAux (some (kv.1, moduleSize kv.2)) rest from rfl] at h
      rcases ih _ k s h with hacc | hrest
      · obtain ⟨rfl, -⟩ : kv.1 = k ∧ moduleSize kv.2 = s := by
          simpa using hacc
        exact Or.inr (by simp [containsKey, List.any_cons])
      · exact Or.inr (hconsKey rest hrest)
    | some p =>
      obtain ⟨k₀, s₀⟩ := p
      by_cases hle : s₀ ≤ moduleSize kv.2
      · rw [show largestAux (some (k₀, s₀)) (kv :: rest) =
          largestAux (some (kv.1, moduleSize kv.2)) rest from
          by simp [largestAux, hle]] at h
        rcases ih _ k s h with hacc | hrest
        · obtain ⟨rfl, -⟩ : kv.1 = k ∧ moduleSize kv.2 = s := by
            simpa using hacc
          exact Or.inr (by simp [containsKey, List.any_cons])
        · exact Or.inr (hconsKey rest hrest)
      · rw [show largestAux (some (k₀, s₀)) (kv :: rest) =
          largestAux (some (k₀, s₀)) rest from by simp [largestAux, hle]] at h
        rcases ih _ k s h with hacc | hrest
        · exact Or.inl hacc
        · exact Or.inr (hconsKey rest hrest)

theorem largestModule_containsKey (mm : ModuleMap) (key : String)
    (h : largestModule mm = some key) : containsKey mm key = true := by
  unfold largestModule at h
  cases haux : largestAux none mm with
  | none => rw [haux] at h; cases h
  | some p =>
    obtain ⟨k, s⟩ := p
    rw [haux] at h
    obtain rfl : k = key := by simpa using h
    rcases largestAux_key mm none k s haux with h' | h'
    · cases h'
    · exact h'

theorem length_attach_support_files (mm : ModuleMap)
    (support : List FileChange) :
    (attach_support_files mm support).length = mm.length := by
  unfold attach_support_files
  cases hL : largestModule mm with
  | none => rfl
  | some largest =>
    have hlargest := largestModule_containsKey mm largest hL
    suffices h : ∀ (sup : List FileChange) (acc : ModuleMap),
        (∀ k', containsKey acc k' = containsKey mm k') →
        acc.length = mm.length →
        ((sup.foldl (fun acc f =>
          addToModule
            (match f.category with
             | FileCategory.Test =>
               if containsKey acc
                   (match fileName f.path with
                    | some n => fileStemOfName n
                    | none => "") then
                 (match fileName f.path with
                  | some n => fileStemOfName n
                  | none => "")
               else largest
             | _ => largest) f acc) acc).length = mm.length) by
      exact h support mm (fun _ => rfl) rfl
    intro sup
    induction sup with
    | nil => intro acc hkeys hlen; exact hlen
    | cons f rest ih =>
      intro acc hkeys hlen
      have hlargestAcc : containsKey acc largest = true := by
        rw [hkeys]; exact hlargest
      have hstep : ∃ tgt,
          (match f.category with
           | FileCategory.Test =>
             if containsKey acc
                 (match fileName f.path with
                  | some n => fileStemOfName n
                  | none => "") then
               (match fileName f.path with
                | some n => fileStemOfName n
                | none => "")
             else largest
           | _ => largest) = tgt ∧ containsKey acc tgt = true := by
        cases f.category with
        | Test =>
          by_cases hstem : containsKey acc
              (match fileName f.path with
               | some n => fileStemOfName n
               | none => "") = true
          · exact ⟨_, by simp [hstem], hstem⟩
          · refine ⟨largest, ?_, hlargestAcc⟩
            simp only []
            rw [if_neg hstem]
        | Source => exact ⟨largest, rfl, hlargestAcc⟩
        | Config => exact ⟨largest, rfl, hlargestAcc⟩
        | Docs => exact ⟨largest, rfl, hlargestAcc⟩
        | Build => exact ⟨largest, rfl, hlargestAcc⟩
        | Other => exact ⟨largest, rfl, hlargestAcc⟩
      obtain ⟨tgt, htgt, hmem⟩ := hstep
      rw [List.foldl_cons, htgt]
      exact ih (addToModule tgt f acc)
        (fun k' => by rw [containsKey_addToModule tgt f acc hmem k', hkeys k'])
        (by rw [length_addToModule tgt f acc hmem, hlen])

theorem length_analyzeGroups (changes : StagedChanges)
    (symbols : List CodeSymbol) :
    (analyzeGroups changes symbols).length =
      (partitionFiles changes.files).1.length := by
  unfold analyzeGroups
  rw [List.length_map, length_attach_support_files]

/-- C2: when the source files partition into two or more modules and
every built group carries the identical (type, scope) pair, `analyze`
returns the single-commit decision instead of a split. -/
theorem identical_groups_collapse_to_single
    (changes : StagedChanges) (symbols : List CodeSymbol)
    (hmods : 2 ≤ (partitionFiles changes.files).1.length)
    (hsame : allSamePair (analyzeGroups changes symbols) = true) :
    analyze changes symbols = SplitSuggestion.SingleCommit := by
  simp only [analyze]
  rw [if_neg (by omega), if_pos (by rw [length_analyzeGroups]; omega),
    if_pos hsame]

/-- Witness for C2: two distinct single-file modules whose groups both
infer (Fix, no scope) collapse to a single commit. -/
theorem identical_groups_collapse_to_single_witness :
    analyze
      { files := [{ path := ["a.rs"], status := .Modified, diff := "",
                    additions := 3, deletions := 1, category := .Source,
                    is_binary := false },
                  { path := ["b.rs"], status := .Modified, diff := "",
                    additions := 2, deletions := 1, category := .Source,
                    is_binary := false }],
        stats := ⟨2, 5, 2⟩ } [] = SplitSuggestion.SingleCommit :=
  identical_groups_collapse_to_single _ [] (by decide) (by decide)

/-- C3: whenever `analyze` suggests a split, the returned groups are the
built groups stably sorted by descending total additions+deletions: the
result is pairwise non-increasing in total size (so of two groups with
different totals the larger comes first), and for every size value the
groups of exactly that size appear in their pre-sort relative order. -/
theorem split_groups_sorted_descending_stable
    (changes : StagedChanges) (symbols : List CodeSymbol)
    (gs : List CommitGroup) (c : Nat)
    (h : analyze changes symbols = SplitSuggestion.SuggestSplit gs) :
    gs.Pairwise
      (fun a b => group_change_size b changes ≤ group_change_size a changes) ∧
    gs.filter (fun g => decide (group_change_size g changes = c)) =
      (analyzeGroups changes symbols).filter
        (fun g => decide (group_change_size g changes = c)) := by
  have hgs : gs = sortStable
      (fun a b =>
        decide (group_change_size b changes < group_change_size a changes))
      (analyzeGroups changes symbols) := by
    simp only [analyze] at h
    split at h
    · exact SplitSuggestion.noConfusion h
    · split at h
      · split at h
        · exact SplitSuggestion.noConfusion h
        · injection h with h'; exact h'.symm
      · injection h with h'; exact h'.symm
  subst hgs
  exact ⟨pairwise_sortStable_desc (fun g => group_change_size g changes) _,
    filter_sortStable_desc (fun g => group_change_size g changes) c _⟩

def c3WitnessChanges : StagedChanges :=
  { files := [{ path := ["src", "alpha", "a.rs"], status := .Modified,
                diff := "", additions := 30, deletions := 0,
                category := .Source, is_binary := false },
              { path := ["src", "beta", "b.rs"], status := .Modified,
                diff := "", additions := 2, deletions := 1,
                category := .Source, is_binary := false }],
    stats := ⟨2, 32, 1⟩ }

def c3WitnessSymbols : List CodeSymbol :=
  [{ kind := .Function, name := "f", file := ["src", "alpha", "a.rs"],
     line := 1, is_public := true, is_added := true }]

/-- Witness for C3: a Feat module (31 changed lines) and a Fix module
(3 changed lines) split with the larger group first. -/
theorem split_groups_sorted_descending_stable_witness :
    ([⟨[["src", "alpha", "a.rs"]], CommitType.Feat, some "alpha"⟩,
      ⟨[["src", "beta", "b.rs"]], CommitType.Fix, some "beta"⟩] :
        List CommitGroup).Pairwise
      (fun a b => group_change_size b c3WitnessChanges ≤
        group_change_size a c3WitnessChanges) ∧
    ([⟨[["src", "alpha", "a.rs"]], CommitType.Feat, some "alpha"⟩,
      ⟨[["src", "beta", "b.rs"]], CommitType.Fix, some "beta"⟩] :
        List CommitGroup).filter
        (fun g => decide (group_change_size g c3WitnessChanges = 3)) =
      (analyzeGroups c3WitnessChanges c3WitnessSymbols).filter
        (fun g => decide (group_change_size g c3WitnessChanges = 3)) :=
  split_groups_sorted_descending_stable c3WitnessChanges c3WitnessSymbols _ 3
    (by decide)

end Commitbee
